import Mathlib

/-!
# Verification of the envtemplate core against its specification

Shallow embedding, in Lean 4, of the core of the `envtemplate` repository:

* the template-context builder `getEnvMap` (main.go), including the marker
  rewrite done with `regexp.ReplaceAll` on the pattern
  `%(?P<VARNAME>[\w-]+)%` and the subsequent `os.ExpandEnv` pass
  (`os.Expand` together with `getShellName` are embedded faithfully from the
  Go standard library, since `getEnvMap`'s behaviour is entirely determined
  by them);
* the `ExtendedString` helper operations `Split`, `LoadFile`, `ToJSON`
  (template package), with Go's `strings.Split` and the string case of
  `encoding/json.Marshal` embedded;
* `TemplateData.Filter` (lib package), with a model of `regexp.Compile` /
  `MatchString` for the fragment of Go regular-expression syntax the
  templates use (literals, character classes, escapes, grouping,
  alternation, `*`/`+`/`?`, and `^`/`$` anchors at the ends of the
  pattern).

Strings are modelled as `List Char` at the algorithmic level; the Go byte
strings handled by the program are UTF-8 text, and every operation involved
treats them code-point-wise, so `List Char` is a faithful carrier.
Environments and template contexts (Go maps populated from `os.Environ`)
are modelled as association lists; real environments carry each name once,
and lookup is by name.
-/

namespace EnvTemplate

/-- An environment snapshot, as handed to the program by `os.Environ`:
name/value pairs (each `KEY=VALUE` entry already split at the first `=`,
which is exactly what `strings.SplitN(e, "=", 2)` in `getEnvMap` does). -/
def Env : Type := List (String × String)

/-- `os.Getenv` against a snapshot: the value of the first binding of the
name, or the empty string when the name is absent (Go's `Getenv` returns
`""` for unset variables). -/
def getenv (env : List (String × String)) (n : String) : String :=
  (List.lookup n env).getD ""

/-- The character class `[\w-]` of the marker regular expression
`%(?P<VARNAME>[\w-]+)%` in `getEnvMap`: Go's `\w` is `[0-9A-Za-z_]`,
plus the literal hyphen. -/
def markerChar (c : Char) : Bool :=
  c.isAlphanum || c = '_' || c = '-'

/-- The `regexp.ReplaceAll` step of `getEnvMap`: every occurrence of
`%NAME%` (NAME a nonempty run of `[\w-]` characters) is rewritten to
`${NAME}`.  The Go replacement template `${$VARNAME}` expands to a literal
`$`, a literal `{`, the captured name, and a literal `}` (the leading
`${$` is malformed as a template variable, so `regexp.Expand` emits the
`$` raw).  Matching is leftmost and non-overlapping; for this pattern the
match at a position, when it exists, is forced: `%`, the maximal run of
`[\w-]` characters, `%`. -/
def replMarkersF (fuel : Nat) (s : List Char) : List Char :=
  match fuel, s with
  | 0, s => s
  | _ + 1, [] => []
  | fuel + 1, c :: rest =>
    if c = '%' then
      let name := rest.takeWhile markerChar
      let after := rest.dropWhile markerChar
      if name ≠ [] ∧ after.head? = some '%' then
        '$' :: '{' :: name ++ '}' :: replMarkersF fuel after.tail
      else
        c :: replMarkersF fuel rest
    else
      c :: replMarkersF fuel rest

/-- The marker-rewrite pass, with enough fuel for the whole input (the
recursion of `replMarkersF` consumes at least one character per step, so
`s.length + 1` steps always suffice). -/
def replMarkers (s : List Char) : List Char :=
  replMarkersF (s.length + 1) s

/-- `isShellSpecialVar` from Go's `os` package: the single-character shell
variables `$*`, `$#`, `$$`, `$@`, `$!`, `$?`, `$0`…`$9`. -/
def isShellSpecialVar (c : Char) : Bool :=
  c = '*' || c = '#' || c = '$' || c = '@' || c = '!' || c = '?' || c.isDigit

/-- `isAlphaNum` from Go's `os` package: underscore, ASCII letters and
digits. -/
def isAlphaNumGo (c : Char) : Bool :=
  c = '_' || c.isDigit || c.isAlpha

/-- `getShellName` from Go's `os` package, on the text following a `$`.
Returns the referenced name together with the number of characters
consumed; an empty name with positive width is malformed syntax whose
characters `os.Expand` eats, and an empty name with width `0` makes
`os.Expand` keep the `$` literally. -/
def getShellName (s : List Char) : List Char × Nat :=
  match s with
  | [] => ([], 0)
  | '{' :: rest =>
    let scanned := rest.takeWhile (fun c => c ≠ '}')
    let scanRes : List Char × Nat :=
      if (rest.dropWhile (fun c => c ≠ '}')).isEmpty then ([], 1)
      else if scanned.isEmpty then ([], 2)
      else (scanned, scanned.length + 2)
    match rest with
    | c1 :: '}' :: _ => if isShellSpecialVar c1 then ([c1], 3) else scanRes
    | _ => scanRes
  | c :: _ =>
    if isShellSpecialVar c then ([c], 1)
    else (s.takeWhile isAlphaNumGo, (s.takeWhile isAlphaNumGo).length)

/-- `os.Expand` from Go's `os` package, with a lookup mapping: scans for
`$name` / `${name}` references, replaces each with the mapping's value,
and never re-scans substituted text.  A `$` that is the last character,
or one followed by no valid name start, stays literal; malformed `${}`
syntax is eaten. -/
def expandF (m : List Char → List Char) (fuel : Nat) (s : List Char) : List Char :=
  match fuel, s with
  | 0, s => s
  | _ + 1, [] => []
  | fuel + 1, c :: rest =>
    if c = '$' ∧ rest ≠ [] then
      let (name, w) := getShellName rest
      if name.isEmpty ∧ 0 < w then
        expandF m fuel (rest.drop w)
      else if name.isEmpty then
        c :: expandF m fuel (rest.drop w)
      else
        m name ++ expandF m fuel (rest.drop w)
    else
      c :: expandF m fuel rest

/-- The expansion pass, with enough fuel for the whole input (each step of
`expandF` consumes at least the character it looks at, so `s.length + 1`
steps always suffice). -/
def expand (m : List Char → List Char) (s : List Char) : List Char :=
  expandF m (s.length + 1) s

theorem replMarkersF_fuel_irrel (f1 : Nat) :
    ∀ (f2 : Nat) (s : List Char), s.length < f1 → s.length < f2 →
      replMarkersF f1 s = replMarkersF f2 s := by
  induction f1 with
  | zero => intro f2 s h1; omega
  | succ n ih =>
    intro f2 s h1 h2
    match f2, s with
    | 0, s => omega
    | m + 1, [] => rfl
    | m + 1, c :: rest =>
      simp only [replMarkersF]
      have hlen : (rest.takeWhile markerChar).length + (rest.dropWhile markerChar).length
          = rest.length := by
        rw [← List.length_append, List.takeWhile_append_dropWhile]
      have htl : (rest.dropWhile markerChar).tail.length
          = (rest.dropWhile markerChar).length - 1 := List.length_tail _
      simp only [List.length_cons] at h1 h2
      split_ifs with hc hm
      · have hself : 0 < (rest.takeWhile markerChar).length := List.length_pos.mpr hm.1
        rw [ih m (rest.dropWhile markerChar).tail (by omega) (by omega)]
      · rw [ih m rest (by omega) (by omega)]
      · rw [ih m rest (by omega) (by omega)]

theorem replMarkers_nil : replMarkers [] = [] := rfl

theorem replMarkers_cons_ne (c : Char) (rest : List Char) (hc : c ≠ '%') :
    replMarkers (c :: rest) = c :: replMarkers rest := by
  simp only [replMarkers, List.length_cons, replMarkersF]
  rw [if_neg hc]

theorem replMarkers_pct_no_match (rest : List Char)
    (h : ¬(rest.takeWhile markerChar ≠ []
        ∧ (rest.dropWhile markerChar).head? = some '%')) :
    replMarkers ('%' :: rest) = '%' :: replMarkers rest := by
  simp only [replMarkers, List.length_cons, replMarkersF, ite_true]
  rw [if_neg h]

theorem replMarkers_pct_match (rest : List Char)
    (h : rest.takeWhile markerChar ≠ []
        ∧ (rest.dropWhile markerChar).head? = some '%') :
    replMarkers ('%' :: rest)
      = '$' :: '{' :: rest.takeWhile markerChar
          ++ '}' :: replMarkers (rest.dropWhile markerChar).tail := by
  have hlen : (rest.takeWhile markerChar).length + (rest.dropWhile markerChar).length
      = rest.length := by
    rw [← List.length_append, List.takeWhile_append_dropWhile]
  have htl : (rest.dropWhile markerChar).tail.length
      = (rest.dropWhile markerChar).length - 1 := List.length_tail _
  have hself : 0 < (rest.takeWhile markerChar).length := List.length_pos.mpr h.1
  simp only [replMarkers, List.length_cons, replMarkersF, ite_true]
  rw [if_pos h]
  rw [replMarkersF_fuel_irrel (rest.length + 1)
    ((rest.dropWhile markerChar).tail.length + 1)
    (rest.dropWhile markerChar).tail (by omega) (by omega)]

theorem expandF_fuel_irrel (m : List Char → List Char) (f1 : Nat) :
    ∀ (f2 : Nat) (s : List Char), s.length < f1 → s.length < f2 →
      expandF m f1 s = expandF m f2 s := by
  induction f1 with
  | zero => intro f2 s h1; omega
  | succ n ih =>
    intro f2 s h1 h2
    match f2, s with
    | 0, s => omega
    | k + 1, [] => rfl
    | k + 1, c :: rest =>
      simp only [expandF]
      simp only [List.length_cons] at h1 h2
      have hdrop : ∀ w : Nat, (rest.drop w).length ≤ rest.length := by
        intro w; rw [List.length_drop]; omega
      split_ifs with hc h3 h4
      · exact ih k _ (by have := hdrop (getShellName rest).2; omega)
          (by have := hdrop (getShellName rest).2; omega)
      · rw [ih k _ (by have := hdrop (getShellName rest).2; omega)
          (by have := hdrop (getShellName rest).2; omega)]
      · rw [ih k _ (by have := hdrop (getShellName rest).2; omega)
          (by have := hdrop (getShellName rest).2; omega)]
      · rw [ih k rest (by omega) (by omega)]

theorem expand_nil (m : List Char → List Char) : expand m [] = [] := rfl

theorem expand_cons_ne (m : List Char → List Char) (c : Char) (rest : List Char)
    (hc : c ≠ '$') :
    expand m (c :: rest) = c :: expand m rest := by
  have : ¬(c = '$' ∧ rest ≠ []) := by
    intro h; exact hc h.1
  simp only [expand, List.length_cons, expandF, this, ite_false]

theorem takeWhile_append_all {p : Char → Bool} {l1 : List Char} (l2 : List Char)
    (h : ∀ c ∈ l1, p c = true) :
    List.takeWhile p (l1 ++ l2) = l1 ++ List.takeWhile p l2 := by
  induction l1 with
  | nil => simp
  | cons c t ih =>
    simp only [List.cons_append, List.takeWhile_cons]
    rw [h c (by simp), ih (fun x hx => h x (by simp [hx]))]
    simp

theorem dropWhile_append_all {p : Char → Bool} {l1 : List Char} (l2 : List Char)
    (h : ∀ c ∈ l1, p c = true) :
    List.dropWhile p (l1 ++ l2) = List.dropWhile p l2 := by
  induction l1 with
  | nil => simp
  | cons c t ih =>
    simp only [List.cons_append, List.dropWhile_cons]
    rw [h c (by simp), ih (fun x hx => h x (by simp [hx]))]
    simp

theorem markerChar_ne (c : Char) (h : markerChar c = true) :
    c ≠ '%' ∧ c ≠ '$' ∧ c ≠ '}' ∧ c ≠ '{' := by
  refine ⟨?_, ?_, ?_, ?_⟩ <;> rintro rfl <;> exact absurd h (by decide)

theorem replMarkers_clean (s : List Char) (h : ∀ c ∈ s, c ≠ '%') :
    replMarkers s = s := by
  induction s with
  | nil => rfl
  | cons c t ih =>
    rw [replMarkers_cons_ne c t (h c (by simp)), ih (fun x hx => h x (by simp [hx]))]

theorem replMarkers_append_clean (p s : List Char) (h : ∀ c ∈ p, c ≠ '%') :
    replMarkers (p ++ s) = p ++ replMarkers s := by
  induction p with
  | nil => simp
  | cons c t ih =>
    simp only [List.cons_append]
    rw [replMarkers_cons_ne c _ (h c (by simp)), ih (fun x hx => h x (by simp [hx]))]

theorem replMarkers_marker (v q : List Char) (hv : v ≠ [])
    (hall : ∀ c ∈ v, markerChar c = true) :
    replMarkers ('%' :: (v ++ '%' :: q))
      = '$' :: '{' :: (v ++ '}' :: replMarkers q) := by
  have hpct : markerChar '%' = false := by decide
  have htake : List.takeWhile markerChar (v ++ '%' :: q) = v := by
    rw [takeWhile_append_all _ hall, List.takeWhile_cons, hpct]
    simp
  have hdrop : List.dropWhile markerChar (v ++ '%' :: q) = '%' :: q := by
    rw [dropWhile_append_all _ hall, List.dropWhile_cons, hpct]
    simp
  have h := replMarkers_pct_match (v ++ '%' :: q) (by rw [htake, hdrop]; exact ⟨hv, rfl⟩)
  rw [h, htake, hdrop]
  simp

theorem expand_clean (m : List Char → List Char) (s : List Char)
    (h : ∀ c ∈ s, c ≠ '$') :
    expand m s = s := by
  induction s with
  | nil => rfl
  | cons c t ih =>
    rw [expand_cons_ne m c t (h c (by simp)), ih (fun x hx => h x (by simp [hx]))]

theorem expand_append_clean (m : List Char → List Char) (p s : List Char)
    (h : ∀ c ∈ p, c ≠ '$') :
    expand m (p ++ s) = p ++ expand m s := by
  induction p with
  | nil => simp
  | cons c t ih =>
    simp only [List.cons_append]
    rw [expand_cons_ne m c _ (h c (by simp)), ih (fun x hx => h x (by simp [hx]))]

theorem getShellName_brace (v q : List Char) (hv : v ≠ [])
    (hvr : ∀ c ∈ v, ¬c = '}') :
    getShellName ('{' :: (v ++ '}' :: q)) = (v, v.length + 2) := by
  have htake : List.takeWhile (fun c => decide ¬(c = '}')) (v ++ '}' :: q) = v := by
    rw [takeWhile_append_all _ (fun c hc => by simp [hvr c hc])]
    simp [List.takeWhile_cons]
  have hdrop : List.dropWhile (fun c => decide ¬(c = '}')) (v ++ '}' :: q) = '}' :: q := by
    rw [dropWhile_append_all _ (fun c hc => by simp [hvr c hc])]
    simp [List.dropWhile_cons]
  match v with
  | [c1] =>
    have hc1 : ¬c1 = '}' := hvr c1 (by simp)
    by_cases hs : isShellSpecialVar c1 = true <;>
      simp_all [getShellName]
  | c1 :: c2 :: v2 =>
    have hc2 : ¬c2 = '}' := hvr c2 (by simp)
    simp only [getShellName, List.cons_append]
    rw [List.cons_append] at htake hdrop
    simp only [List.cons_append] at htake hdrop ⊢
    simp_all [getShellName, List.isEmpty_iff]

theorem expand_ref (m : List Char → List Char) (v q : List Char) (hv : v ≠ [])
    (hvr : ∀ c ∈ v, ¬c = '}') :
    expand m ('$' :: '{' :: (v ++ '}' :: q)) = m v ++ expand m q := by
  have hrest : ('{' :: (v ++ '}' :: q)) ≠ [] := by simp
  have hgsn := getShellName_brace v q hv hvr
  have hdropq : List.drop (v.length + 2) ('{' :: (v ++ '}' :: q)) = q := by
    have : '{' :: (v ++ '}' :: q) = (('{' :: v) ++ ['}']) ++ q := by simp
    rw [this]
    have hlen : (('{' :: v) ++ ['}']).length = v.length + 2 := by
      simp [List.length_append]
    rw [← hlen, List.drop_left]
  simp only [expand, List.length_cons, expandF]
  rw [if_pos ⟨trivial, hrest⟩]
  simp only [hgsn]
  have hne : (v.isEmpty = true) = False := by
    simp [List.isEmpty_iff, hv]
  simp only [hne]
  simp only [false_and, if_false, ite_false]
  rw [hdropq]
  have hql : q.length < ('{' :: (v ++ '}' :: q)).length + 1 := by
    simp [List.length_append]
    omega
  rw [expandF_fuel_irrel m ((v ++ '}' :: q).length + 1 + 1) (q.length + 1) q
    (by simp [List.length_append]; omega) (by omega)]

/-- The per-value processing of `getEnvMap` in main.go: rewrite `%NAME%`
markers to `${NAME}`, then `os.ExpandEnv` the result against the
environment snapshot. -/
def processValue (env : List (String × String)) (v : String) : String :=
  ⟨expand (fun n => (getenv env ⟨n⟩).data) (replMarkers v.data)⟩

/-- `getEnvMap` from main.go: the template context, binding every
environment variable name to its marker-rewritten and then
environment-expanded value.  The map is modelled as the association list
of processed bindings. -/
def getEnvMap (env : List (String × String)) : List (String × String) :=
  env.map (fun p => (p.1, processValue env p.2))

theorem lookup_map_snd (f : String → String) (l : List (String × String)) (k : String) :
    List.lookup k (l.map (fun p => (p.1, f p.2))) = (List.lookup k l).map f := by
  induction l with
  | nil => rfl
  | cons a t ih =>
    simp only [List.map_cons, List.lookup]
    cases hk : k == a.1 <;> simp [hk, ih]

/-- The context value computed for a variable whose raw value is
`p ++ "%" ++ v ++ "%" ++ q`, with `p` and `q` free of `%` and `$`: the
marker is rewritten to `${v}` and then resolved, in one pass, to the
current value of `v` in the snapshot. -/
theorem processValue_marker_form (env : List (String × String)) (v p q : String)
    (hv : v.data ≠ []) (hall : ∀ c ∈ v.data, markerChar c = true)
    (hp : ∀ c ∈ p.data, c ≠ '%' ∧ c ≠ '$')
    (hq : ∀ c ∈ q.data, c ≠ '%' ∧ c ≠ '$') :
    processValue env (p ++ "%" ++ v ++ "%" ++ q) = p ++ getenv env v ++ q := by
  have hdata : (p ++ "%" ++ v ++ "%" ++ q).data
      = p.data ++ ('%' :: (v.data ++ '%' :: q.data)) := by
    simp [String.data_append, List.append_assoc]
  unfold processValue
  rw [hdata]
  rw [replMarkers_append_clean _ _ (fun c hc => (hp c hc).1)]
  rw [replMarkers_marker v.data q.data hv hall]
  rw [replMarkers_clean q.data (fun c hc => (hq c hc).1)]
  rw [expand_append_clean _ _ _ (fun c hc => (hp c hc).2)]
  rw [expand_ref _ v.data q.data hv (fun c hc => (markerChar_ne c (hall c hc)).2.2.1)]
  rw [expand_clean _ q.data (fun c hc => (hq c hc).2)]
  show String.mk (p.data ++ ((getenv env v).data ++ q.data)) = p ++ getenv env v ++ q
  have hout : (p ++ getenv env v ++ q).data = p.data ++ ((getenv env v).data ++ q.data) := by
    simp [String.data_append, List.append_assoc]
  rw [← hout]

/-- **C1.** For every environment variable whose raw value embeds the
self-reference marker `%v%` (raw value `p ++ "%" ++ v ++ "%" ++ q`, the
surrounding text free of further markers and of `$`-expansions), the
template context substitutes that marker with the variable's own raw,
unexpanded value as read from the snapshot, in exactly one pass: the
substituted raw value — marker text included — appears literally in the
result, with no re-scanning and no fixed-point iteration. -/
theorem getEnvMap_self_reference_single_pass
    (env : List (String × String)) (v p q : String)
    (hv : v.data ≠ []) (hall : ∀ c ∈ v.data, markerChar c = true)
    (hp : ∀ c ∈ p.data, c ≠ '%' ∧ c ≠ '$')
    (hq : ∀ c ∈ q.data, c ≠ '%' ∧ c ≠ '$')
    (hlook : List.lookup v env = some (p ++ "%" ++ v ++ "%" ++ q)) :
    List.lookup v (getEnvMap env)
      = some (p ++ (p ++ "%" ++ v ++ "%" ++ q) ++ q) := by
  unfold getEnvMap
  rw [lookup_map_snd, hlook, Option.map_some']
  rw [processValue_marker_form env v p q hv hall hp hq]
  have hgv : getenv env v = p ++ "%" ++ v ++ "%" ++ q := by
    rw [getenv, hlook]; rfl
  rw [hgv]

theorem getEnvMap_self_reference_single_pass_witness :
    List.lookup "V" (getEnvMap [("V", "a%V%b")])
      = some ("a" ++ ("a" ++ "%" ++ "V" ++ "%" ++ "b") ++ "b") :=
  getEnvMap_self_reference_single_pass [("V", "a%V%b")] "V" "a" "b"
    (by decide) (by decide) (by decide) (by decide) (by decide)

/-- **C2, counterexample.** On the spec's own example environment
`{A: "x%A%y"}` the builder produces `"xx%A%yy"` for `A` — the `%A%` marker
is substituted with `A`'s raw value `"x%A%y"` — and not `"xy"` as the
claim states. -/
theorem getEnvMap_selfref_example_not_xy :
    List.lookup "A" (getEnvMap [("A", "x%A%y")]) = some "xx%A%yy"
      ∧ ("xx%A%yy" : String) ≠ "xy" := by
  constructor
  · decide
  · decide

/-- **C2, amended.** Given environment `{A: "x%A%y"}`, the resulting
context value for `A` is `"xx%A%yy"`: the marker resolves to `A`'s own
raw (unexpanded) value, so the surrounding raw text reappears around it. -/
theorem getEnvMap_selfref_example_value :
    List.lookup "A" (getEnvMap [("A", "x%A%y")]) = some "xx%A%yy" := by
  decide

/-- **C3, counterexample.** A raw value containing no `%NAME%` marker is
not necessarily left literal: the `os.ExpandEnv` pass still rewrites
host-syntax references.  With environment `{A: "1", B: "$A"}`, the value
of `B` contains no marker, yet the context binds `B` to `"1"`, not to the
literal `"$A"`. -/
theorem getEnvMap_dollar_not_literal :
    List.lookup "B" (getEnvMap [("A", "1"), ("B", "$A")]) = some "1"
      ∧ ("1" : String) ≠ "$A" := by
  constructor
  · decide
  · decide

/-- Whether a value contains a `%NAME%` marker (a `%`, a nonempty run of
`[\w-]` characters, a `%`), i.e. whether the rewrite regular expression
matches anywhere in it. -/
def hasMarker (s : List Char) : Bool :=
  match s with
  | [] => false
  | c :: rest =>
    (c = '%' && (rest.takeWhile markerChar ≠ []
        && (rest.dropWhile markerChar).head? = some '%'))
      || hasMarker rest

theorem replMarkers_of_no_marker (s : List Char) (h : hasMarker s = false) :
    replMarkers s = s := by
  induction s with
  | nil => rfl
  | cons c t ih =>
    simp only [hasMarker, Bool.or_eq_false_iff, Bool.and_eq_false_iff] at h
    rcases h with ⟨h1, h2⟩
    by_cases hc : c = '%'
    · subst hc
      rcases h1 with h1 | h1
      · simp at h1
      · rw [replMarkers_pct_no_match t (by
          intro hcon
          rcases h1 with h1 | h1
          · simp only [decide_eq_false_iff_not] at h1
            exact h1 hcon.1
          · simp only [decide_eq_false_iff_not] at h1
            exact h1 hcon.2), ih h2]
    · rw [replMarkers_cons_ne c t hc, ih h2]

/-- **C3, amended.** A raw value that contains no `%NAME%` marker and no
`$` character is left as literal text: its context entry is exactly the
raw environment value.  (The claim's "regardless of what other characters
— e.g. `$` — the value contains" is false: values containing `$` are
still subject to the host-expansion pass, see the counterexample.) -/
theorem getEnvMap_no_marker_no_dollar_literal
    (env : List (String × String)) (n val : String)
    (hlook : List.lookup n env = some val)
    (hm : hasMarker val.data = false)
    (hd : ∀ c ∈ val.data, c ≠ '$') :
    List.lookup n (getEnvMap env) = some val := by
  unfold getEnvMap
  rw [lookup_map_snd, hlook, Option.map_some']
  unfold processValue
  rw [replMarkers_of_no_marker val.data hm, expand_clean _ val.data hd]

theorem getEnvMap_no_marker_no_dollar_literal_witness :
    List.lookup "B" (getEnvMap [("A", "1"), ("B", "100% sure")]) = some "100% sure" :=
  getEnvMap_no_marker_no_dollar_literal [("A", "1"), ("B", "100% sure")]
    "B" "100% sure" (by decide) (by decide) (by decide)

/-- **C4.** A marker `%name%` whose name is bound by no environment
variable resolves to empty text and never to an error: for a variable
with raw value `p ++ "%" ++ name ++ "%" ++ q` (`p`, `q` clean) where
`name` is absent from the snapshot, the context value is just
`p ++ q`. -/
theorem getEnvMap_missing_name_empty
    (env : List (String × String)) (v nm p q : String)
    (hn : nm.data ≠ []) (hall : ∀ c ∈ nm.data, markerChar c = true)
    (hp : ∀ c ∈ p.data, c ≠ '%' ∧ c ≠ '$')
    (hq : ∀ c ∈ q.data, c ≠ '%' ∧ c ≠ '$')
    (habs : List.lookup nm env = none)
    (hlook : List.lookup v env = some (p ++ "%" ++ nm ++ "%" ++ q)) :
    List.lookup v (getEnvMap env) = some (p ++ q) := by
  unfold getEnvMap
  rw [lookup_map_snd, hlook, Option.map_some']
  rw [processValue_marker_form env nm p q hn hall hp hq]
  have hgv : getenv env nm = "" := by
    rw [getenv, habs]; rfl
  rw [hgv]
  have : (p ++ "" ++ q) = p ++ q := by simp
  rw [this]

theorem getEnvMap_missing_name_empty_witness :
    List.lookup "B" (getEnvMap [("B", "%UNDEFINED%")]) = some ("" ++ "") :=
  getEnvMap_missing_name_empty [("B", "%UNDEFINED%")] "B" "UNDEFINED" "" ""
    (by decide) (by decide) (by decide) (by decide) (by decide) (by decide)

theorem lookup_cons_unfold (k : String) (a : String × String)
    (t : List (String × String)) :
    List.lookup k (a :: t) = if k == a.1 then some a.2 else List.lookup k t := by
  rcases a with ⟨x, y⟩
  simp only [List.lookup]
  cases h : k == x <;> simp [h]

theorem lookup_perm_of_nodup_keys {l1 l2 : List (String × String)}
    (h : l1.Perm l2) (hnd : (l1.map Prod.fst).Nodup) (k : String) :
    List.lookup k l1 = List.lookup k l2 := by
  induction h with
  | nil => rfl
  | cons a h ih =>
    simp only [List.map_cons, List.nodup_cons] at hnd
    rw [lookup_cons_unfold, lookup_cons_unfold]
    split_ifs
    · rfl
    · exact ih hnd.2
  | swap a b l =>
    simp only [List.map_cons, List.nodup_cons, List.mem_cons, not_or] at hnd
    have hne : b.1 ≠ a.1 := hnd.1.1
    rw [lookup_cons_unfold, lookup_cons_unfold, lookup_cons_unfold, lookup_cons_unfold]
    by_cases hka : (k == a.1) = true <;> by_cases hkb : (k == b.1) = true
    · exact absurd (by
        rw [← beq_iff_eq.mp hkb]
        exact beq_iff_eq.mp hka) hne
    · simp [hka, hkb]
    · simp [hka, hkb]
    · simp [hka, hkb]
  | trans h1 h2 ih1 ih2 =>
    rw [ih1 hnd, ih2 ((h1.map Prod.fst).nodup_iff.mp hnd)]

theorem getenv_perm_of_nodup_keys {l1 l2 : List (String × String)}
    (h : l1.Perm l2) (hnd : (l1.map Prod.fst).Nodup) :
    getenv l1 = getenv l2 := by
  funext n
  rw [getenv, getenv, lookup_perm_of_nodup_keys h hnd n]

theorem processValue_congr {l1 l2 : List (String × String)}
    (h : getenv l1 = getenv l2) (v : String) :
    processValue l1 v = processValue l2 v := by
  unfold processValue
  rw [h]

/-- **C5.** The template context is independent of the order in which the
environment variables are enumerated: for any two enumeration orders of
the same set of (uniquely named) bindings, every name is bound to the
same value in the two resulting contexts — phase 2 always resolves
against the complete snapshot, never against partially built entries. -/
theorem getEnvMap_perm_invariant
    (env1 env2 : List (String × String))
    (h : env1.Perm env2) (hnd : (env1.map Prod.fst).Nodup) (k : String) :
    List.lookup k (getEnvMap env1) = List.lookup k (getEnvMap env2) := by
  unfold getEnvMap
  rw [lookup_map_snd, lookup_map_snd]
  rw [lookup_perm_of_nodup_keys h hnd k]
  cases hl : List.lookup k env2 with
  | none => rfl
  | some v =>
    simp only [Option.map_some']
    rw [processValue_congr (getenv_perm_of_nodup_keys h hnd) v]

theorem getEnvMap_perm_invariant_witness :
    List.lookup "B" (getEnvMap [("A", "1"), ("B", "%A%")])
      = List.lookup "B" (getEnvMap [("B", "%A%"), ("A", "1")])
    ∧ List.lookup "B" (getEnvMap [("A", "1"), ("B", "%A%")]) = some "1" :=
  ⟨getEnvMap_perm_invariant [("A", "1"), ("B", "%A%")] [("B", "%A%"), ("A", "1")]
      (by decide) (by decide) "B",
    by decide⟩

/-! ## ExtendedString helpers: Split, LoadFile, ToJSON -/

/-- Index of the first occurrence of `sep` in `s` (Go's `strings.Index`),
`none` when `sep` does not occur. -/
def firstIdx (s sep : List Char) : Option Nat :=
  if sep.isPrefixOf s then some 0
  else
    match s with
    | [] => none
    | _ :: t => (firstIdx t sep).map (· + 1)

/-- The splitting loop of Go's `strings.Split` (`genSplit`) for a nonempty
separator: cut at each occurrence of `sep`, scanning left to right.  Each
step consumes at least `sep`, so `s.length + 1` rounds of fuel always
suffice. -/
def splitNEF (fuel : Nat) (s sep : List Char) : List (List Char) :=
  match fuel with
  | 0 => [s]
  | fuel + 1 =>
    match firstIdx s sep with
    | none => [s]
    | some i => s.take i :: splitNEF fuel (s.drop (i + sep.length)) sep

/-- Go's `strings.Split`: empty separator explodes the text into one piece
per code point; otherwise cut around every occurrence of the separator. -/
def goSplit (s sep : List Char) : List (List Char) :=
  if sep.isEmpty then s.map (fun c => [c])
  else splitNEF (s.length + 1) s sep

/-- `ExtendedString.Split` from the template package: `strings.Split`, with
each piece wrapped back into an `ExtendedString`. -/
def ExtendedString.Split (es sep : String) : List String :=
  (goSplit es.data sep.data).map String.mk

/-- `ExtendedString.LoadFile` from the template package, against a
file-system oracle `fs` (`none` models any failure of `os.ReadFile`:
missing file, permission denied, path is a directory).  The first
component is the returned value, the second the diagnostic lines written
to the standard error stream.  On failure the code prints
`"Error reading file %s: %v"` formatted with the path and the (nil) data
slice — a nil slice renders as `[]` — and returns the empty string; no
error value escapes, so the render continues. -/
def ExtendedString.LoadFile (fs : String → Option String) (es : String) :
    String × List String :=
  match fs es with
  | some fileData => (fileData, [])
  | none => ("", ["Error reading file " ++ es ++ ": []"])

/-- The hexadecimal digits used by Go's `encoding/json` string encoder
(`hex = "0123456789abcdef"`). -/
def hexDigit (n : Nat) : Char :=
  if n < 10 then Char.ofNat ('0'.toNat + n) else Char.ofNat ('a'.toNat + (n - 10))

/-- `htmlSafeSet` from Go's `encoding/json`: the characters the encoder
emits verbatim inside a JSON string when HTML escaping is on (the
default used by `json.Marshal`): printable ASCII except `"`, `\`, `&`,
`<` and `>`. -/
def htmlSafe (c : Char) : Bool :=
  0x20 ≤ c.toNat && c.toNat < 0x80
    && !(c = '"') && !(c = '\\') && !(c = '&') && !(c = '<') && !(c = '>')

/-- Per-character escaping of Go's `encoding/json` `appendString` with
`escapeHTML = true`: safe characters verbatim; `\` and `"` backslashed;
the named control escapes; every other ASCII character (controls, `&`,
`<`, `>`) as `\u00XX`; U+2028/U+2029 as ` `/` `; all other
code points verbatim.  (The Go loop batches safe runs via a `start`
index; character-wise emission produces the identical output.) -/
def jsonEscChar (c : Char) : List Char :=
  if htmlSafe c then [c]
  else if c.toNat < 0x80 then
    if c = '\\' || c = '"' then ['\\', c]
    else if c = Char.ofNat 8 then ['\\', 'b']
    else if c = Char.ofNat 12 then ['\\', 'f']
    else if c = '\n' then ['\\', 'n']
    else if c = '\r' then ['\\', 'r']
    else if c = '\t' then ['\\', 't']
    else ['\\', 'u', '0', '0', hexDigit (c.toNat / 16), hexDigit (c.toNat % 16)]
  else if c.toNat = 0x2028 then ['\\', 'u', '2', '0', '2', '8']
  else if c.toNat = 0x2029 then ['\\', 'u', '2', '0', '2', '9']
  else [c]

/-- The body of the encoded JSON string: each character escaped in
sequence. -/
def jsonEncodeChars (s : List Char) : List Char :=
  match s with
  | [] => []
  | c :: rest => jsonEscChar c ++ jsonEncodeChars rest

/-- `ExtendedString.ToJSON` from the template package: `json.Marshal` of a
string value — the text JSON-escaped (HTML-safe escaping included, as
`json.Marshal` defaults to) and wrapped in double quotes.  Marshalling a
string value cannot fail, so the code's log-and-return-empty error branch
is unreachable. -/
def ExtendedString.ToJSON (es : String) : String :=
  ⟨'"' :: (jsonEncodeChars es.data ++ ['"'])⟩

theorem jsonEncodeChars_append (a b : List Char) :
    jsonEncodeChars (a ++ b) = jsonEncodeChars a ++ jsonEncodeChars b := by
  induction a with
  | nil => rfl
  | cons c t ih =>
    simp only [List.cons_append, jsonEncodeChars, List.append_assoc]
    rw [show t.append b = t ++ b from rfl, ih]

theorem firstIdx_none_of_not_infix (sep : List Char) :
    ∀ s : List Char, ¬ List.IsInfix sep s → firstIdx s sep = none := by
  intro s
  induction s with
  | nil =>
    intro h
    rw [firstIdx]
    rw [if_neg]
    intro hpre
    exact h (List.isPrefixOf_iff_prefix.mp hpre).isInfix
  | cons c t ih =>
    intro h
    rw [firstIdx]
    rw [if_neg]
    · rw [ih (fun hinf => h (List.infix_cons hinf))]
      rfl
    · intro hpre
      exact h (List.isPrefixOf_iff_prefix.mp hpre).isInfix

/-- **C8.** For every text and every non-empty separator that does not
occur in the text, `Split` returns the one-element sequence holding the
text itself. -/
theorem Split_single_of_not_occurring (s sep : String) (hne : sep ≠ "")
    (hni : ¬ List.IsInfix sep.data s.data) :
    ExtendedString.Split s sep = [s] := by
  have hdne : sep.data ≠ [] := by
    intro hcon
    apply hne
    cases sep with
    | mk d =>
      simp only at hcon
      rw [hcon]
  unfold ExtendedString.Split goSplit
  rw [if_neg (by simpa [List.isEmpty_iff] using hdne)]
  simp only [splitNEF, firstIdx_none_of_not_infix sep.data s.data hni]
  rfl

theorem Split_single_of_not_occurring_witness :
    ExtendedString.Split "abc" "x" = ["abc"] :=
  Split_single_of_not_occurring "abc" "x" (by decide) (by decide)

/-- **C9.** On any read failure (the file-system oracle yields no content
for the path), `LoadFile` returns the empty Extended String Value and
reports the failure on the diagnostic stream; it returns normally — no
error value escapes to abort the render. -/
theorem LoadFile_failure_empty_and_reported
    (fs : String → Option String) (path : String) (hfail : fs path = none) :
    (ExtendedString.LoadFile fs path).1 = ""
      ∧ (ExtendedString.LoadFile fs path).2 ≠ [] := by
  unfold ExtendedString.LoadFile
  rw [hfail]
  exact ⟨rfl, by simp⟩

theorem LoadFile_failure_empty_and_reported_witness :
    (ExtendedString.LoadFile (fun _ => none) "missing.txt").1 = ""
      ∧ (ExtendedString.LoadFile (fun _ => none) "missing.txt").2 ≠ [] :=
  LoadFile_failure_empty_and_reported (fun _ => none) "missing.txt" rfl

/-- **C10.** `ToJSON` encodes every occurrence of `&`, `<` and `>` in the
text as the six-character HTML-safe escape `\u0026`, `\u003c`,
`\u003e` respectively,
rather than emitting the character literally: wherever the text splits as
`pre ++ [c] ++ post` with `c` one of the three characters, the encoded
output is the encoded `pre`, the six-character escape, then the encoded
`post`, inside the surrounding quotes. -/
theorem ToJSON_html_escapes (s : String) (pre post : List Char) :
    (s.data = pre ++ '&' :: post →
      (ExtendedString.ToJSON s).data
        = '"' :: (jsonEncodeChars pre
            ++ ('\\' :: 'u' :: '0' :: '0' :: '2' :: '6' :: jsonEncodeChars post)
            ++ ['"']))
  ∧ (s.data = pre ++ '<' :: post →
      (ExtendedString.ToJSON s).data
        = '"' :: (jsonEncodeChars pre
            ++ ('\\' :: 'u' :: '0' :: '0' :: '3' :: 'c' :: jsonEncodeChars post)
            ++ ['"']))
  ∧ (s.data = pre ++ '>' :: post →
      (ExtendedString.ToJSON s).data
        = '"' :: (jsonEncodeChars pre
            ++ ('\\' :: 'u' :: '0' :: '0' :: '3' :: 'e' :: jsonEncodeChars post)
            ++ ['"'])) := by
  refine ⟨fun h => ?_, fun h => ?_, fun h => ?_⟩ <;>
    unfold ExtendedString.ToJSON <;>
    rw [h, jsonEncodeChars_append] <;>
    simp only [jsonEncodeChars]
  · rw [(by decide : jsonEscChar '&' = ['\\', 'u', '0', '0', '2', '6'])]
    simp [List.append_assoc]
  · rw [(by decide : jsonEscChar '<' = ['\\', 'u', '0', '0', '3', 'c'])]
    simp [List.append_assoc]
  · rw [(by decide : jsonEscChar '>' = ['\\', 'u', '0', '0', '3', 'e'])]
    simp [List.append_assoc]

theorem ToJSON_html_escapes_witness :
    (ExtendedString.ToJSON "a&b").data
      = '"' :: (jsonEncodeChars ['a']
          ++ ('\\' :: 'u' :: '0' :: '0' :: '2' :: '6' :: jsonEncodeChars ['b'])
          ++ ['"']) :=
  (ToJSON_html_escapes "a&b" ['a'] ['b']).1 (by decide)

/-! ## A model of Go regular expressions for `TemplateData.Filter`

`regexp.Compile` / `MatchString` are modelled for the fragment of Go
(RE2) syntax the repository's templates use: literal characters, `.`,
character classes (`[...]`, ranges, negation), the Perl classes
`\d \w \s \D \W \S`, escaped literals, grouping `(...)`, alternation
`|`, the repetitions `*` `+` `?`, and the anchors `^` / `$` at the ends
of the pattern.  Matching is defined by Brzozowski derivatives and proved
equivalent to the declarative language semantics; `MatchString` searches
for a match anywhere in the text (anchors restrict it to a prefix, a
suffix or the whole text), exactly as Go's unanchored matching does. -/

/-- Syntax of the compiled regular expression: empty language, empty
string, a single character satisfying a predicate (literal characters and
character classes both compile to this), alternation, concatenation, and
Kleene star. -/
inductive GoRe : Type
  | void
  | eps
  | cls (p : Char → Bool)
  | alt (r1 r2 : GoRe)
  | cat (r1 r2 : GoRe)
  | star (r : GoRe)

namespace GoRe

/-- Does the expression accept the empty string? -/
def nullable : GoRe → Bool
  | void => false
  | eps => true
  | cls _ => false
  | alt a b => a.nullable || b.nullable
  | cat a b => a.nullable && b.nullable
  | star _ => true

/-- Brzozowski derivative: `deriv r c` accepts `x` iff `r` accepts
`c :: x`. -/
def deriv : GoRe → Char → GoRe
  | void, _ => void
  | eps, _ => void
  | cls p, c => if p c then eps else void
  | alt a b, c => alt (a.deriv c) (b.deriv c)
  | cat a b, c => if a.nullable then alt (cat (a.deriv c) b) (b.deriv c) else cat (a.deriv c) b
  | star a, c => cat (a.deriv c) (star a)

/-- Derivative-based matching of a whole word. -/
def rmatch : GoRe → List Char → Bool
  | r, [] => r.nullable
  | r, c :: rest => (r.deriv c).rmatch rest

/-- Declarative language semantics of the expression. -/
def Lang : GoRe → List Char → Prop
  | void, _ => False
  | eps, x => x = []
  | cls p, x => ∃ c, x = [c] ∧ p c = true
  | alt a b, x => Lang a x ∨ Lang b x
  | cat a b, x => ∃ u v, x = u ++ v ∧ Lang a u ∧ Lang b v
  | star a, x => ∃ S : List (List Char), x = S.flatten ∧ ∀ t ∈ S, t ≠ [] ∧ Lang a t

theorem void_rmatch (x : List Char) : rmatch void x = false := by
  induction x with
  | nil => rfl
  | cons c t ih => rw [rmatch, deriv]; exact ih

theorem eps_rmatch_iff (x : List Char) : rmatch eps x = true ↔ x = [] := by
  cases x with
  | nil => simp [rmatch, nullable]
  | cons c t => rw [rmatch, deriv, void_rmatch]; simp

theorem cls_rmatch_iff (p : Char → Bool) (x : List Char) :
    rmatch (cls p) x = true ↔ ∃ c, x = [c] ∧ p c = true := by
  cases x with
  | nil => simp [rmatch, nullable]
  | cons c t =>
    rw [rmatch, deriv]
    by_cases hp : p c = true
    · rw [if_pos hp, eps_rmatch_iff]
      constructor
      · rintro rfl; exact ⟨c, rfl, hp⟩
      · rintro ⟨c2, hc2, _⟩
        simpa using congrArg List.tail hc2
    · rw [if_neg hp, void_rmatch]
      constructor
      · intro hcon
        exact absurd hcon Bool.false_ne_true
      · rintro ⟨c2, hc2, hp2⟩
        simp only [List.cons.injEq] at hc2
        obtain ⟨rfl, -⟩ := hc2
        exact (hp hp2).elim


theorem alt_rmatch (a b : GoRe) (x : List Char) :
    rmatch (alt a b) x = (rmatch a x || rmatch b x) := by
  induction x generalizing a b with
  | nil => simp [rmatch, nullable]
  | cons c t ih =>
    rw [rmatch, deriv, ih]
    rw [rmatch, rmatch]

theorem cat_rmatch_iff (a b : GoRe) (x : List Char) :
    rmatch (cat a b) x = true
      ↔ ∃ u v, x = u ++ v ∧ rmatch a u = true ∧ rmatch b v = true := by
  induction x generalizing a b with
  | nil =>
    rw [rmatch]
    simp only [nullable, Bool.and_eq_true]
    constructor
    · rintro ⟨ha, hb⟩
      exact ⟨[], [], rfl, by rw [rmatch]; exact ha, by rw [rmatch]; exact hb⟩
    · rintro ⟨u, v, huv, hu, hv⟩
      obtain ⟨rfl, rfl⟩ := List.append_eq_nil.mp huv.symm
      rw [rmatch] at hu hv
      exact ⟨hu, hv⟩
  | cons c t ih =>
    rw [rmatch]
    simp only [deriv]
    by_cases hn : a.nullable = true
    · rw [if_pos hn, alt_rmatch]
      rw [Bool.or_eq_true]
      constructor
      · rintro (h | h)
        · obtain ⟨u, v, hx, hu, hv⟩ := (ih _ _).mp h
          exact ⟨c :: u, v, by simp [hx], by rw [rmatch]; exact hu, hv⟩
        · exact ⟨[], c :: t, rfl, by rw [rmatch]; exact hn, by rw [rmatch]; exact h⟩
      · rintro ⟨u, v, hx, hu, hv⟩
        match u with
        | [] =>
          right
          have hv2 : v = c :: t := by simpa using hx.symm
          rw [hv2, rmatch] at hv
          exact hv
        | c1 :: u1 =>
          left
          have hc1 : c1 = c ∧ u1 ++ v = t := by simpa using hx.symm
          rw [(ih _ _)]
          refine ⟨u1, v, hc1.2.symm, ?_, hv⟩
          rw [rmatch, hc1.1] at hu
          exact hu
    · rw [if_neg hn]
      constructor
      · intro h
        obtain ⟨u, v, hx, hu, hv⟩ := (ih _ _).mp h
        exact ⟨c :: u, v, by simp [hx], by rw [rmatch]; exact hu, hv⟩
      · rintro ⟨u, v, hx, hu, hv⟩
        match u with
        | [] =>
          rw [rmatch] at hu
          exact absurd hu (by simpa using hn)
        | c1 :: u1 =>
          have hc1 : c1 = c ∧ u1 ++ v = t := by simpa using hx.symm
          rw [(ih _ _)]
          refine ⟨u1, v, hc1.2.symm, ?_, hv⟩
          rw [rmatch, hc1.1] at hu
          exact hu

theorem star_rmatch_iff (a : GoRe) : ∀ x : List Char,
    rmatch (star a) x = true
      ↔ ∃ S : List (List Char), x = S.flatten ∧ ∀ t ∈ S, t ≠ [] ∧ rmatch a t = true := by
  intro x
  have IH := fun t (_ : t.length < x.length) => star_rmatch_iff a t
  constructor
  · intro h
    match x with
    | [] => exact ⟨[], rfl, by simp⟩
    | c :: x1 =>
      rw [rmatch] at h
      simp only [deriv] at h
      rw [cat_rmatch_iff] at h
      obtain ⟨u, v, hx, hu, hv⟩ := h
      have hvlen : v.length < (c :: x1).length := by
        simp only [List.length_cons, hx, List.length_append]
        omega
      obtain ⟨S1, hS1, hSall⟩ := (IH v hvlen).mp hv
      refine ⟨(c :: u) :: S1, ?_, ?_⟩
      · simp [hx, hS1]
      · intro t ht
        rcases List.mem_cons.mp ht with rfl | ht2
        · exact ⟨by simp, by rw [rmatch]; exact hu⟩
        · exact hSall t ht2
  · rintro ⟨S, rfl, hall⟩
    match S with
    | [] => rfl
    | t1 :: S1 =>
      obtain ⟨ht1ne, ht1m⟩ := hall t1 (by simp)
      match t1, ht1ne with
      | c :: u1, _ =>
        have hflat : ((c :: u1) :: S1).flatten = c :: (u1 ++ S1.flatten) := by
          simp
        rw [hflat, rmatch]
        simp only [deriv]
        rw [cat_rmatch_iff]
        refine ⟨u1, S1.flatten, rfl, by rw [rmatch] at ht1m; exact ht1m, ?_⟩
        have hlen : S1.flatten.length < (((c :: u1) :: S1).flatten).length := by
          simp [List.length_append]
          omega
        rw [IH S1.flatten (by rw [hflat] at hlen; simpa using hlen)]
        exact ⟨S1, rfl, fun t ht => hall t (by simp [ht])⟩
  termination_by x => x.length

/-- The derivative matcher agrees with the declarative language
semantics. -/
theorem rmatch_iff_lang (r : GoRe) : ∀ x : List Char,
    rmatch r x = true ↔ Lang r x := by
  induction r with
  | void => intro x; rw [void_rmatch]; simp [Lang]
  | eps => intro x; rw [eps_rmatch_iff]; simp [Lang]
  | cls p => intro x; rw [cls_rmatch_iff]; simp [Lang]
  | alt a b iha ihb =>
    intro x
    rw [alt_rmatch, Bool.or_eq_true, iha, ihb]
    simp [Lang]
  | cat a b iha ihb =>
    intro x
    rw [cat_rmatch_iff]
    simp only [Lang]
    constructor
    · rintro ⟨u, v, hx, hu, hv⟩
      exact ⟨u, v, hx, (iha u).mp hu, (ihb v).mp hv⟩
    · rintro ⟨u, v, hx, hu, hv⟩
      exact ⟨u, v, hx, (iha u).mpr hu, (ihb v).mpr hv⟩
  | star a iha =>
    intro x
    rw [star_rmatch_iff]
    simp only [Lang]
    constructor
    · rintro ⟨S, hx, hall⟩
      exact ⟨S, hx, fun t ht => ⟨(hall t ht).1, (iha t).mp (hall t ht).2⟩⟩
    · rintro ⟨S, hx, hall⟩
      exact ⟨S, hx, fun t ht => ⟨(hall t ht).1, (iha t).mpr (hall t ht).2⟩⟩

end GoRe

end EnvTemplate

namespace EnvTemplate

/-- The Perl character classes Go regular expressions accept
(`\d \D \w \W \s \S`), as predicates. -/
def perlClassPred : Char → Option (Char → Bool)
  | 'd' => some Char.isDigit
  | 'D' => some (fun c => !c.isDigit)
  | 'w' => some (fun c => c.isAlphanum || c = '_')
  | 'W' => some (fun c => !(c.isAlphanum || c = '_'))
  | 's' => some (fun c => c = ' ' || c = '\t' || c = '\n' || c = Char.ofNat 12 || c = '\r')
  | 'S' => some (fun c => !(c = ' ' || c = '\t' || c = '\n' || c = Char.ofNat 12 || c = '\r'))
  | _ => none

/-- Escaped literals: escaped metacharacters stand for themselves, and the
usual control escapes are recognised.  Anything else after a backslash is
rejected, as Go rejects unknown escapes. -/
def escapedLiteral : Char → Option Char
  | '\\' => some '\\'
  | '.' => some '.'
  | '+' => some '+'
  | '*' => some '*'
  | '?' => some '?'
  | '(' => some '('
  | ')' => some ')'
  | '|' => some '|'
  | '[' => some '['
  | ']' => some ']'
  | '{' => some '{'
  | '}' => some '}'
  | '^' => some '^'
  | '$' => some '$'
  | '-' => some '-'
  | '/' => some '/'
  | 'n' => some '\n'
  | 't' => some '\t'
  | 'r' => some '\r'
  | 'f' => some (Char.ofNat 12)
  | 'v' => some (Char.ofNat 11)
  | 'a' => some (Char.ofNat 7)
  | _ => none

/-- Body of a character class `[...]` (after the opening bracket and the
optional negating `^`): literal characters, ranges `a-b`, Perl classes and
escaped literals, up to the closing `]`.  An unterminated or empty class
is an error, as in Go. -/
def parseClassItems (fuel : Nat) (acc : Char → Bool) (seen : Bool) (s : List Char) :
    Except String ((Char → Bool) × List Char) :=
  match fuel with
  | 0 => .error "character class too long"
  | fuel + 1 =>
    match s with
    | [] => .error "missing closing ]"
    | ']' :: rest =>
      if seen then .ok (acc, rest) else .error "empty character class"
    | '\\' :: [] => .error "trailing backslash at end of expression"
    | '\\' :: d :: rest =>
      match perlClassPred d with
      | some p => parseClassItems fuel (fun c => acc c || p c) true rest
      | none =>
        match escapedLiteral d with
        | some l => parseClassItems fuel (fun c => acc c || c = l) true rest
        | none => .error "invalid escape sequence"
    | c1 :: '-' :: c2 :: rest =>
      if c2 = ']' then
        parseClassItems fuel (fun c => acc c || c = c1 || c = '-') true (']' :: rest)
      else if c1.toNat ≤ c2.toNat then
        parseClassItems fuel
          (fun c => acc c || (c1.toNat ≤ c.toNat && c.toNat ≤ c2.toNat)) true rest
      else .error "invalid character class range"
    | c1 :: rest => parseClassItems fuel (fun c => acc c || c = c1) true rest

/-- Recursive-descent parser for the modelled fragment of Go regular
expression syntax.  `mode 0` parses an alternation, `mode 1` a
concatenation, `mode 2` one term with an optional `*`/`+`/`?` repetition,
and any other mode a single atom (group, class, escape, `.` or literal).
The fuel only bounds the recursion depth; `compile` supplies enough for
the whole pattern. -/
def parseRe (fuel : Nat) (mode : Nat) (s : List Char) :
    Except String (GoRe × List Char) :=
  match fuel with
  | 0 => .error "expression too deeply nested"
  | fuel + 1 =>
    match mode with
    | 0 =>
      match parseRe fuel 1 s with
      | .error e => .error e
      | .ok (r1, rest) =>
        match rest with
        | '|' :: rest2 =>
          match parseRe fuel 0 rest2 with
          | .error e => .error e
          | .ok (r2, rest3) => .ok (.alt r1 r2, rest3)
        | _ => .ok (r1, rest)
    | 1 =>
      match s with
      | [] => .ok (.eps, [])
      | ')' :: _ => .ok (.eps, s)
      | '|' :: _ => .ok (.eps, s)
      | _ =>
        match parseRe fuel 2 s with
        | .error e => .error e
        | .ok (r1, rest) =>
          match parseRe fuel 1 rest with
          | .error e => .error e
          | .ok (r2, rest2) => .ok (.cat r1 r2, rest2)
    | 2 =>
      match parseRe fuel 3 s with
      | .error e => .error e
      | .ok (r, rest) =>
        match rest with
        | '*' :: rest2 => .ok (.star r, rest2)
        | '+' :: rest2 => .ok (.cat r (.star r), rest2)
        | '?' :: rest2 => .ok (.alt r .eps, rest2)
        | _ => .ok (r, rest)
    | _ =>
      match s with
      | [] => .error "missing operand"
      | '(' :: rest =>
        match parseRe fuel 0 rest with
        | .error e => .error e
        | .ok (r, rest2) =>
          match rest2 with
          | ')' :: rest3 => .ok (r, rest3)
          | _ => .error "missing closing )"
      | '[' :: '^' :: rest =>
        match parseClassItems (rest.length + 1) (fun _ => false) false rest with
        | .error e => .error e
        | .ok (p, rest2) => .ok (.cls (fun c => !(p c)), rest2)
      | '[' :: rest =>
        match parseClassItems (rest.length + 1) (fun _ => false) false rest with
        | .error e => .error e
        | .ok (p, rest2) => .ok (.cls p, rest2)
      | '\\' :: [] => .error "trailing backslash at end of expression"
      | '\\' :: d :: rest =>
        match perlClassPred d with
        | some p => .ok (.cls p, rest)
        | none =>
          match escapedLiteral d with
          | some l => .ok (.cls (fun c => c = l), rest)
          | none => .error "invalid escape sequence"
      | '.' :: rest => .ok (.cls (fun c => !(c = '\n')), rest)
      | ')' :: _ => .error "unexpected )"
      | '*' :: _ => .error "missing argument to repetition operator"
      | '+' :: _ => .error "missing argument to repetition operator"
      | '?' :: _ => .error "missing argument to repetition operator"
      | '^' :: _ => .error "unsupported anchor position"
      | '$' :: _ => .error "unsupported anchor position"
      | c :: rest => .ok (.cls (fun x => x = c), rest)

/-- A compiled pattern: the start/end anchors stripped from the ends of
the pattern, and the core expression. -/
structure Regexp where
  anchorStart : Bool
  core : GoRe
  anchorEnd : Bool

/-- `regexp.Compile` for the modelled fragment: strip a leading `^` and an
(unescaped) trailing `$`, parse the remainder, and fail on syntax errors
exactly where Go fails (unbalanced groups or classes, dangling repetition
operators, unknown or trailing escapes). -/
def compile (pattern : String) : Except String Regexp :=
  let s0 := pattern.data
  let p1 : Bool × List Char :=
    match s0 with
    | '^' :: rest => (true, rest)
    | _ => (false, s0)
  let p2 : Bool × List Char :=
    match p1.2.reverse with
    | '$' :: restRev =>
      if (restRev.takeWhile (fun c => c = '\\')).length % 2 = 0 then
        (true, restRev.reverse)
      else (false, p1.2)
    | _ => (false, p1.2)
  match parseRe (4 * p2.2.length + 8) 0 p2.2 with
  | .error e => .error e
  | .ok (r, rest) =>
    match rest with
    | [] => .ok ⟨p1.1, r, p2.1⟩
    | _ => .error "unexpected closing )"

/-- `(*Regexp).MatchString`: whether the expression matches somewhere in
the text — anywhere for an unanchored pattern, at the start / at the end /
over the whole text according to the anchors. -/
def Regexp.MatchString (R : Regexp) (s : List Char) : Bool :=
  match R.anchorStart, R.anchorEnd with
  | true, true => R.core.rmatch s
  | true, false => s.inits.any (fun u => R.core.rmatch u)
  | false, true => s.tails.any (fun u => R.core.rmatch u)
  | false, false => s.tails.any (fun t => t.inits.any (fun u => R.core.rmatch u))

/-- Declarative reading of `MatchString`: some decomposition
`pre ++ mid ++ post` of the text has `mid` in the language of the core
expression, with `pre`/`post` forced empty by the respective anchors. -/
def MatchesIn (R : Regexp) (s : List Char) : Prop :=
  ∃ pre mid post, s = pre ++ mid ++ post ∧ GoRe.Lang R.core mid
    ∧ (R.anchorStart = true → pre = []) ∧ (R.anchorEnd = true → post = [])

theorem MatchString_iff_MatchesIn (R : Regexp) (s : List Char) :
    R.MatchString s = true ↔ MatchesIn R s := by
  rcases R with ⟨aS, core, aE⟩
  cases aS <;> cases aE <;>
    simp only [Regexp.MatchString, MatchesIn, List.any_eq_true, List.mem_tails,
      List.mem_inits]
  · -- unanchored: any substring
    constructor
    · rintro ⟨t, hts, u, hut, hm⟩
      obtain ⟨pre, hpre⟩ := hts
      obtain ⟨post, hpost⟩ := hut
      exact ⟨pre, u, post, by rw [← hpre, ← hpost, List.append_assoc], (GoRe.rmatch_iff_lang core u).mp hm,
        by simp, by simp⟩
    · rintro ⟨pre, mid, post, rfl, hm, -, -⟩
      exact ⟨mid ++ post, ⟨pre, (List.append_assoc pre mid post).symm⟩, mid, ⟨post, rfl⟩,
        (GoRe.rmatch_iff_lang core mid).mpr hm⟩
  · -- end anchor: some suffix is in the language
    constructor
    · rintro ⟨t, hts, hm⟩
      obtain ⟨pre, hpre⟩ := hts
      exact ⟨pre, t, [], by rw [← hpre]; simp, (GoRe.rmatch_iff_lang core t).mp hm,
        by simp, fun _ => rfl⟩
    · rintro ⟨pre, mid, post, rfl, hm, -, hpost⟩
      rw [hpost trivial]
      exact ⟨mid, ⟨pre, by simp⟩, (GoRe.rmatch_iff_lang core mid).mpr hm⟩
  · -- start anchor: some prefix is in the language
    constructor
    · rintro ⟨u, hus, hm⟩
      obtain ⟨post, hpost⟩ := hus
      exact ⟨[], u, post, by rw [← hpost]; simp, (GoRe.rmatch_iff_lang core u).mp hm,
        fun _ => rfl, by simp⟩
    · rintro ⟨pre, mid, post, rfl, hm, hpre, -⟩
      rw [hpre trivial]
      exact ⟨mid, ⟨post, by simp⟩, (GoRe.rmatch_iff_lang core mid).mpr hm⟩
  · -- both anchors: the whole text is in the language
    constructor
    · intro hm
      exact ⟨[], s, [], by simp, (GoRe.rmatch_iff_lang core s).mp hm,
        fun _ => rfl, fun _ => rfl⟩
    · rintro ⟨pre, mid, post, rfl, hm, hpre, hpost⟩
      rw [hpre trivial, hpost trivial]
      simpa using (GoRe.rmatch_iff_lang core mid).mpr hm

/-- The template-context type of the lib package:
`map[string]ExtendedString`, modelled as an association list. -/
abbrev TemplateData := List (String × String)

/-- `TemplateData.Filter` from the lib package: compile the pattern; on a
compilation error, log `"Invalid pattern: %s - error: %v"` to standard
error and return the empty context; otherwise return the fresh context of
the entries whose key `MatchString`-matches.  The second component is the
diagnostic stream. -/
def TemplateData.Filter (t : TemplateData) (pattern : String) :
    TemplateData × List String :=
  match compile pattern with
  | .error e => ([], ["Invalid pattern: " ++ pattern ++ " - error: " ++ e])
  | .ok r => (t.filter (fun kv => r.MatchString kv.1.data), [])

end EnvTemplate

namespace EnvTemplate

/-- **C6, amended.** For a pattern that compiles, `Filter` returns a fresh
context containing exactly those entries of the input whose key the
pattern matches *somewhere* (Go's unanchored `MatchString`: any
decomposition `pre ++ mid ++ post` of the key with `mid` in the pattern's
language, the anchors `^`/`$` forcing `pre`/`post` empty); each kept entry
keeps its key and value.  A key on which the pattern matches only a
proper substring is therefore still included unless the pattern is
anchored — the claim's full-text-only matching is what `Filter` does only
for `^…$`-anchored patterns. -/
theorem Filter_mem_iff (t : TemplateData) (pattern : String) (R : Regexp)
    (hc : compile pattern = .ok R) (k v : String) :
    (k, v) ∈ (TemplateData.Filter t pattern).1
      ↔ (k, v) ∈ t ∧ MatchesIn R k.data := by
  unfold TemplateData.Filter
  rw [hc]
  simp only [List.mem_filter]
  rw [MatchString_iff_MatchesIn]

theorem Filter_mem_iff_witness :
    ("VAULT_SECRET_1", "x")
        ∈ (TemplateData.Filter [("VAULT_SECRET_1", "x"), ("OTHER", "z")]
            "^VAULT_SECRET_\\d+$").1
      ↔ ("VAULT_SECRET_1", "x") ∈ [("VAULT_SECRET_1", "x"), ("OTHER", "z")]
          ∧ MatchesIn
              ((compile "^VAULT_SECRET_\\d+$").toOption.getD ⟨false, .void, false⟩)
              "VAULT_SECRET_1".data :=
  Filter_mem_iff [("VAULT_SECRET_1", "x"), ("OTHER", "z")] "^VAULT_SECRET_\\d+$"
    ((compile "^VAULT_SECRET_\\d+$").toOption.getD ⟨false, .void, false⟩) rfl
    "VAULT_SECRET_1" "x"

/-- The membership test the claim describes, modelled from the spec words:
an entry is kept when the key's *full text* matches the compiled pattern
(for comparison with the code, whose `MatchString` is unanchored). -/
def specKeyFullMatches (pattern k : String) : Bool :=
  match compile pattern with
  | .ok R => R.core.rmatch k.data
  | .error _ => false

/-- **C6, counterexample.** With context `{AB ↦ v}` and pattern `"A"`,
`Filter` keeps the entry `("AB", v)` although the full text of the key
`"AB"` does not match the pattern — the pattern matches only the proper
substring `"A"` — contradicting the claim that such a key is not
included. -/
theorem Filter_substring_counterexample :
    ("AB", "v") ∈ (TemplateData.Filter [("AB", "v")] "A").1
      ∧ specKeyFullMatches "A" "AB" = false := by
  constructor
  · decide
  · decide

/-- **C7.** For every context and every pattern that fails to compile,
`Filter` reports the error on the diagnostic stream and returns the empty
context; it returns normally — no fatal error, nothing aborts
rendering. -/
theorem Filter_invalid_pattern_empty (t : TemplateData) (pattern e : String)
    (hc : compile pattern = .error e) :
    (TemplateData.Filter t pattern).1 = []
      ∧ (TemplateData.Filter t pattern).2 ≠ [] := by
  unfold TemplateData.Filter
  rw [hc]
  exact ⟨rfl, by simp⟩

theorem Filter_invalid_pattern_empty_witness :
    (TemplateData.Filter [("K", "v")] "(").1 = []
      ∧ (TemplateData.Filter [("K", "v")] "(").2 ≠ [] :=
  Filter_invalid_pattern_empty [("K", "v")] "(" "missing closing )" rfl

end EnvTemplate
